import Mathlib

/-!
Verification development for the html_jparser core (`core.py`): the event-driven
tree builder with its mismatch-recovery rule, the jQuery-style selector parser,
the breadth-first matching engine, and path addressing with the query cache.
Machine strings and lists are modelled directly; Python exceptions are modelled
as `Option` failure.
-/

/-- Value of one html attribute: a plain string, or — for the `class` key,
which `handle_starttag` splits on spaces — a list of class tokens. -/
inductive AttrVal where
  | plain (s : String)
  | classList (cs : List String)
deriving DecidableEq, Repr

/-- Python `str.split(sep)` for a one-character separator, over char lists:
keeps empty pieces and returns `[[]]` on the empty string. -/
def pySplitChar (sep : Char) : List Char → List (List Char)
  | [] => [[]]
  | c :: cs =>
    if c = sep then [] :: pySplitChar sep cs
    else
      match pySplitChar sep cs with
      | p :: ps => (c :: p) :: ps
      | [] => [[c]]

/-- String wrapper for `pySplitChar`. -/
def pySplit (sep : Char) (s : String) : List String :=
  (pySplitChar sep s.data).map (fun l => String.mk l)

/-- Python dict assignment `d[k] = v`: overwrite in place if the key exists,
otherwise append at the end (insertion order is preserved). -/
def dictSet {β : Type} (d : List (String × β)) (k : String) (v : β) :
    List (String × β) :=
  if d.any (fun p => p.1 = k) then
    d.map (fun p => if p.1 = k then (k, v) else p)
  else d ++ [(k, v)]

/-- Python `dict(attrs)` on a list of key/value pairs. -/
def dictOfPairs (l : List (String × String)) : List (String × String) :=
  l.foldl (fun d p => dictSet d p.1 p.2) []

/-- Python dict lookup `d[k]` / `k in d` on an association list whose keys
are unique: first (and only) match. -/
def alookup {β : Type} (k : String) : List (String × β) → Option β
  | [] => none
  | (a, b) :: d => if a = k then some b else alookup k d

/-- Attribute normalisation done by `handle_starttag`: `dict(attrs)`, then the
`class` value (if present) is replaced by `attrs['class'].split(' ')`. -/
def buildAttrs (l : List (String × String)) : List (String × AttrVal) :=
  (dictOfPairs l).map (fun p =>
    if p.1 = "class" then (p.1, AttrVal.classList (pySplit ' ' p.2))
    else (p.1, AttrVal.plain p.2))

/-- A node of the html tree (`HtmlTag` in `core.py`), without the parent
back-reference: parenthood is represented by the tree structure itself. -/
inductive HtmlTag where
  | mk (tag : String) (attrs : List (String × AttrVal)) (text : String)
       (comments : List String) (children : List HtmlTag)

def HtmlTag.tag : HtmlTag → String
  | .mk t _ _ _ _ => t

def HtmlTag.attrs : HtmlTag → List (String × AttrVal)
  | .mk _ a _ _ _ => a

def HtmlTag.text : HtmlTag → String
  | .mk _ _ x _ _ => x

def HtmlTag.comments : HtmlTag → List String
  | .mk _ _ _ c _ => c

def HtmlTag.children : HtmlTag → List HtmlTag
  | .mk _ _ _ _ ks => ks

/-- The orphan truncation `t.children = []` performed by `handle_endtag`. -/
def clearKids : HtmlTag → HtmlTag
  | .mk t a x c _ => .mk t a x c []

mutual

/-- Number of nodes of a tree (the node itself plus all descendants). -/
def sizeTag : HtmlTag → Nat
  | .mk _ _ _ _ ks => 1 + sizeTagList ks

/-- Total number of nodes of a forest. -/
def sizeTagList : List HtmlTag → Nat
  | [] => 0
  | t :: ts => sizeTag t + sizeTagList ts

end

/-- One still-open element during tree building: its data plus the children
accumulated so far.  The currently open child of a frame is not stored in
`children`; it is the next frame up the builder stack and is attached on pop,
mirroring the fact that in `core.py` an open node is always the last element
of its parent's child list. -/
structure Frame where
  tag : String
  attrs : List (String × AttrVal)
  text : String
  comments : List String
  children : List HtmlTag

def Frame.toTag (f : Frame) : HtmlTag :=
  .mk f.tag f.attrs f.text f.comments f.children

/-- Tokenizer events fed to `CustomHTMLParser` (names follow the
`handle_*` methods). -/
inductive Event where
  | starttag (tag : String) (attrs : List (String × String))
  | endtag (tag : String)
  | text (s : String)
  | comment (s : String)

/-- Builder state: the stack of open frames (cursor first, root last), or the
degenerate state after a `close` whose target was the root itself, which sets
`cur_tag` to `None` in the Python code. -/
inductive BState where
  | active (cur : Frame) (rest : List Frame)
  | rootClosed (root : Frame)

/-- The `while self.cur_tag.tag != tag` walk of `handle_endtag`: `tags` is the
orphan accumulator; a visited frame has its children collected and cleared and
its (now childless) node stays attached to its parent; at the target the
orphans are truncated and appended, and the cursor moves to the target's
parent.  Walking past the root is the Python `AttributeError` on
`None.tag`, modelled as `none`. -/
def closeGo (name : String) : Frame → List Frame → List HtmlTag → Option BState
  | f, rest, tags =>
    if f.tag = name then
      let f' : Frame := { f with children := f.children ++ tags.map clearKids }
      match rest with
      | [] => some (.rootClosed f')
      | p :: rest' =>
          some (.active { p with children := p.children ++ [f'.toTag] } rest')
    else
      match rest with
      | [] => none
      | p :: rest' =>
          closeGo name
            { p with children := p.children ++ [Frame.toTag { f with children := [] }] }
            rest' (tags ++ f.children)

/-- One event step of `CustomHTMLParser`.  In the `rootClosed` state the
cursor is `None` and every handler raises, so every event fails. -/
def step (s : BState) (e : Event) : Option BState :=
  match s with
  | .rootClosed _ => none
  | .active cur rest =>
    match e with
    | .starttag t a =>
        some (.active (Frame.mk t (buildAttrs a) "" [] []) (cur :: rest))
    | .endtag t => closeGo t cur rest []
    | .text s => some (.active { cur with text := cur.text ++ s } rest)
    | .comment s => some (.active { cur with comments := cur.comments ++ [s] } rest)

/-- Initial builder state: the sentinel root `HtmlTag('root', {})`. -/
def initState : BState :=
  .active (Frame.mk "root" [] "" [] []) []

/-- Run the builder over a whole event stream. -/
def runEvents (s : BState) : List Event → Option BState
  | [] => some s
  | e :: es => (step s e).bind (fun s' => runEvents s' es)

/-- Materialise the tree from a final builder state (what `feed` returns:
`self.root` with every still-open frame attached under its parent). -/
def finishState : BState → HtmlTag
  | .rootClosed f => f.toTag
  | .active cur rest =>
      rest.foldl (fun node p => Frame.toTag { p with children := p.children ++ [node] })
        cur.toTag

/-- Build a tree from an event stream (`CustomHTMLParser().feed`), failing when
some handler raises. -/
def build (es : List Event) : Option HtmlTag :=
  (runEvents initState es).map finishState

/-- The scan loop shared by `Selector.__clean`: `st` is Python's `start`
variable together with the characters collected since it was set (so that
`self.cmd[start+1:i]` is `buf.reverse`).  The emptiness test `and start` is
Python truthiness, so a piece whose start index is `0` is never emitted by the
in-loop branch — only by the final `if start is not None` append. -/
def cleanLoop (startSep : Char) (stops : List Char) :
    List Char → Nat → Option (Nat × List Char) → List String → List String
  | [], _, none, acc => acc
  | [], _, some (_, buf), acc => acc ++ [String.mk buf.reverse]
  | c :: rest, i, none, acc =>
      cleanLoop startSep stops rest (i + 1)
        (if c = startSep then some (i, ([] : List Char)) else none) acc
  | c :: rest, i, some (k, buf), acc =>
      if stops.contains c && decide (k ≠ 0) then
        cleanLoop startSep stops rest (i + 1)
          (if c = startSep then some (i, ([] : List Char)) else none)
          (acc ++ [String.mk buf.reverse])
      else
        cleanLoop startSep stops rest (i + 1)
          (if c = startSep then some (i, ([] : List Char)) else some (k, c :: buf)) acc

/-- Model of `Selector.__clean`: the guard `if start_sep not in self.cmd: return []`
followed by the index scan. -/
def clean (startSep : Char) (stops : List Char) (cmd : String) : List String :=
  if cmd.data.contains startSep then cleanLoop startSep stops cmd.data 0 none []
  else []

/-- Separator characters `cls_sep + id_sep + attr_sep` of the `Selector`
class. -/
def selSeps : List Char := ['.', '#', '[', ']']

/-- Model of `Selector.__clean_tag`: the prefix of the token before the first
separator character. -/
def cleanTag (cmd : String) : String :=
  String.mk (cmd.data.takeWhile (fun c => !selSeps.contains c))

/-- Model of `Selector.__clean_cls`. -/
def cleanCls (cmd : String) : List String :=
  clean '.' selSeps cmd

/-- Model of `Selector.__clean_id`. -/
def cleanId (cmd : String) : String :=
  match clean '#' selSeps cmd with
  | x :: _ => x
  | [] => ""

/-- The accumulation loop of `Selector.__clean_attrs`: each piece must unpack
as `key, value = attr.split('=')`, which raises (modelled as `none`) unless
the split has exactly two parts; the pair is then stored with
`attrs_dict[key] = value`. -/
def attrsFold (d : List (String × String)) : List String → Option (List (String × String))
  | [] => some d
  | s :: rest =>
    match pySplitChar '=' s.data with
    | [k, v] => attrsFold (dictSet d (String.mk k) (String.mk v)) rest
    | _ => none

/-- Model of `Selector.__clean_attrs` with the two-character bracket separator. -/
def cleanAttrs (cmd : String) : Option (List (String × String)) :=
  attrsFold [] (clean '[' [']'] cmd)

/-- Parsed form of one selector token (`Selector` in `core.py`). -/
structure Selector where
  cmd : String
  tag : String
  cls : List String
  id : String
  attrs : List (String × String)

/-- Model of `Selector.__init__`, failing when `__clean_attrs` raises. -/
def Selector.mk? (cmd : String) : Option Selector :=
  (cleanAttrs cmd).map (fun attrs =>
    ⟨cmd, cleanTag cmd, cleanCls cmd, cleanId cmd, attrs⟩)

/-- Map a fallible function over a list, failing at the first failure (a
Python list comprehension over a raising function). -/
def mapOpt {α β : Type} (f : α → Option β) : List α → Option (List β)
  | [] => some []
  | a :: l => (f a).bind (fun b => (mapOpt f l).map (fun bs => b :: bs))

/-- Fold a fallible function over a list, failing at the first failure (a
Python for-loop over a raising body). -/
def foldOpt {σ α : Type} (f : σ → α → Option σ) : σ → List α → Option σ
  | s, [] => some s
  | s, a :: l => (f s a).bind (fun s' => foldOpt f s' l)

/-- Model of `Selector.parse`: split the query on single spaces and parse each token. -/
def Selector.parse (cmd : String) : Option (List Selector) :=
  mapOpt Selector.mk? (pySplit ' ' cmd)

/-- Python `needle in hay` for strings: substring containment. -/
def pyStrIn (needle hay : String) : Bool :=
  decide (needle.data <:+: hay.data)

/-- Python `cls in v` where `v` is an attribute value: list membership for a
class list, substring containment for a plain string. -/
def pyInAttrVal (cls : String) (v : AttrVal) : Bool :=
  match v with
  | .classList cs => cs.contains cls
  | .plain s => pyStrIn cls s

/-- Python `s == v` comparing a string with an attribute value: equal strings
for a plain value, always `False` against a list. -/
def pyEqStrAttr (s : String) (v : AttrVal) : Bool :=
  match v with
  | .plain s' => s = s'
  | .classList _ => false

/-- Model of `Selector.__check_tag`. -/
def Selector.check_tag (sel : Selector) (t : HtmlTag) : Bool :=
  if sel.tag ≠ "" then sel.tag = t.tag else true

/-- Model of `Selector.__check_id`. -/
def Selector.check_id (sel : Selector) (t : HtmlTag) : Bool :=
  if sel.id ≠ "" then
    match alookup "id" t.attrs with
    | some v => pyEqStrAttr sel.id v
    | none => false
  else true

/-- Model of `Selector.__check_cls`. -/
def Selector.check_cls (sel : Selector) (t : HtmlTag) : Bool :=
  if sel.cls.length > 0 then
    match alookup "class" t.attrs with
    | some v => sel.cls.all (fun c => pyInAttrVal c v)
    | none => false
  else true

/-- Model of `Selector.__check_attrs`. -/
def Selector.check_attrs (sel : Selector) (t : HtmlTag) : Bool :=
  sel.attrs.all (fun kv =>
    match alookup kv.1 t.attrs with
    | some v => pyEqStrAttr kv.2 v
    | none => false)

/-- Model of `Selector.check_html_tag`: the conjunction of the four checks. -/
def Selector.check_html_tag (sel : Selector) (t : HtmlTag) : Bool :=
  sel.check_tag t && sel.check_id t && sel.check_cls t && sel.check_attrs t

theorem sizeTag_pos (t : HtmlTag) : 1 ≤ sizeTag t := by
  cases t with
  | mk tag attrs text comments ks => simp [sizeTag]

theorem sizeTagList_eq_zero {ts : List HtmlTag} (h : sizeTagList ts = 0) : ts = [] := by
  cases ts with
  | nil => rfl
  | cons t ts =>
    exfalso
    have := sizeTag_pos t
    simp [sizeTagList] at h
    omega

theorem pow3_forest (ks : List HtmlTag) :
    ((ks.map (fun t => 3 ^ sizeTag t)).sum) ≤ 3 ^ sizeTagList ks := by
  induction ks with
  | nil => simp
  | cons t ts ih =>
    simp only [List.map_cons, List.sum_cons, sizeTagList]
    rw [pow_add]
    rcases Nat.eq_zero_or_pos (sizeTagList ts) with h | h
    · have hts : ts = [] := sizeTagList_eq_zero h
      subst hts
      simp [h]
    · have hx : 3 ≤ 3 ^ sizeTag t := by
        calc (3 : Nat) = 3 ^ 1 := by norm_num
        _ ≤ 3 ^ sizeTag t := Nat.pow_le_pow_right (by norm_num) (sizeTag_pos t)
      have hy : 3 ≤ 3 ^ sizeTagList ts := by
        calc (3 : Nat) = 3 ^ 1 := by norm_num
        _ ≤ 3 ^ sizeTagList ts := Nat.pow_le_pow_right (by norm_num) h
      nlinarith

theorem children_pow_lt (t : HtmlTag) :
    2 * ((t.children.map (fun c => 3 ^ sizeTag c)).sum) < 3 ^ sizeTag t := by
  cases t with
  | mk tag attrs text comments ks =>
    have h := pow3_forest ks
    simp only [HtmlTag.children, sizeTag]
    rw [pow_add]
    have h3 : 1 ≤ 3 ^ sizeTagList ks := Nat.one_le_pow _ _ (by norm_num)
    nlinarith

/-- One entry of the breadth-first work queue of `HtmlTag.select`
(`{'html_tag': ..., 'selectors': ...}`), together with the position of the
node below the query root — the pure-model stand-in for Python object
identity, which `get_path` recovers by scanning parents. -/
structure QItem where
  path : List Nat
  html_tag : HtmlTag
  selectors : List Selector

/-- The `for child in html_tag.children: q.put(...)` enqueue: children in
order, each with its sibling index appended to the path. -/
def childItems (p : List Nat) (sels : List Selector) : Nat → List HtmlTag → List QItem
  | _, [] => []
  | i, c :: cs => ⟨p ++ [i], c, sels⟩ :: childItems p sels (i + 1) cs

/-- Termination weight of a queue item. -/
def wItem (it : QItem) : Nat := 3 ^ sizeTag it.html_tag

/-- Termination weight of a queue. -/
def wSum (q : List QItem) : Nat := (q.map wItem).sum

theorem wSum_append (a b : List QItem) : wSum (a ++ b) = wSum a + wSum b := by
  simp [wSum]

theorem wSum_childItems (cs : List HtmlTag) :
    ∀ i p sels, wSum (childItems p sels i cs) = (cs.map (fun c => 3 ^ sizeTag c)).sum := by
  induction cs with
  | nil => intro i p sels; simp [childItems, wSum]
  | cons c cs ih =>
    intro i p sels
    simp [childItems, wSum, wItem] at ih ⊢
    exact ih (i + 1) p sels

theorem wSum_enqueue_lt (it : QItem) (q : List QItem) :
    wSum (q ++ childItems it.path it.selectors 0 it.html_tag.children) <
      wSum (it :: q) := by
  have h := children_pow_lt it.html_tag
  have hc := wSum_childItems it.html_tag.children 0 it.path it.selectors
  have : wSum (it :: q) = wItem it + wSum q := by simp [wSum]
  rw [wSum_append, hc, this]
  simp only [wItem]
  omega

theorem wSum_enqueue2_lt (it : QItem) (q : List QItem) (rest : List Selector) :
    wSum ((q ++ childItems it.path it.selectors 0 it.html_tag.children)
        ++ childItems it.path rest 0 it.html_tag.children) <
      wSum (it :: q) := by
  have h := children_pow_lt it.html_tag
  have hc := wSum_childItems it.html_tag.children 0 it.path it.selectors
  have hc2 := wSum_childItems it.html_tag.children 0 it.path rest
  have : wSum (it :: q) = wItem it + wSum q := by simp [wSum]
  rw [wSum_append, wSum_append, hc, hc2, this]
  simp only [wItem]
  omega

/-- The BFS loop of `HtmlTag.select`: dequeue an item, enqueue all children
with the same selector chain, then — if the chain's first selector matches —
either record the node (singleton chain) or enqueue all children with the
popped chain.  `selectors` is never empty for items this code actually builds;
the `[]` branch is dead. -/
def selLoop : List QItem → List (List Nat × HtmlTag) → List (List Nat × HtmlTag)
  | [], res => res
  | it :: q, res =>
    match it.selectors with
    | [] => selLoop (q ++ childItems it.path it.selectors 0 it.html_tag.children) res
    | s :: rest =>
      if s.check_html_tag it.html_tag then
        match rest with
        | [] =>
            selLoop (q ++ childItems it.path it.selectors 0 it.html_tag.children)
              (res ++ [(it.path, it.html_tag)])
        | _ :: _ =>
            selLoop ((q ++ childItems it.path it.selectors 0 it.html_tag.children)
                ++ childItems it.path rest 0 it.html_tag.children) res
      else selLoop (q ++ childItems it.path it.selectors 0 it.html_tag.children) res
termination_by q res => wSum q
decreasing_by
  all_goals first
  | exact wSum_enqueue_lt _ _
  | exact wSum_enqueue2_lt _ _ _

theorem selLoop_nil (res : List (List Nat × HtmlTag)) : selLoop [] res = res := by
  rw [selLoop]

theorem selLoop_cons_empty {it : QItem} (q : List QItem) (res : List (List Nat × HtmlTag))
    (hsel : it.selectors = []) :
    selLoop (it :: q) res =
      selLoop (q ++ childItems it.path it.selectors 0 it.html_tag.children) res := by
  rw [selLoop, hsel]

theorem selLoop_cons_hit1 {it : QItem} {s : Selector} (q : List QItem)
    (res : List (List Nat × HtmlTag)) (hsel : it.selectors = [s])
    (hchk : s.check_html_tag it.html_tag = true) :
    selLoop (it :: q) res =
      selLoop (q ++ childItems it.path it.selectors 0 it.html_tag.children)
        (res ++ [(it.path, it.html_tag)]) := by
  conv_lhs => rw [selLoop, hsel]
  simp [hchk]
  rw [hsel]

theorem selLoop_cons_hitN {it : QItem} {s s' : Selector} {rest : List Selector}
    (q : List QItem) (res : List (List Nat × HtmlTag))
    (hsel : it.selectors = s :: s' :: rest)
    (hchk : s.check_html_tag it.html_tag = true) :
    selLoop (it :: q) res =
      selLoop ((q ++ childItems it.path it.selectors 0 it.html_tag.children)
        ++ childItems it.path (s' :: rest) 0 it.html_tag.children) res := by
  conv_lhs => rw [selLoop, hsel]
  simp [hchk]
  rw [hsel]

theorem selLoop_cons_miss {it : QItem} {s : Selector} {rest : List Selector}
    (q : List QItem) (res : List (List Nat × HtmlTag))
    (hsel : it.selectors = s :: rest)
    (hchk : s.check_html_tag it.html_tag = false) :
    selLoop (it :: q) res =
      selLoop (q ++ childItems it.path it.selectors 0 it.html_tag.children) res := by
  conv_lhs => rw [selLoop, hsel]
  cases rest with
  | nil => simp [hchk]; rw [hsel]
  | cons a l => simp [hchk]; rw [hsel]

/-- Model of `HtmlTag.select` keeping result positions (the model of object identity). -/
def selectP (t : HtmlTag) (cmd : String) : Option (List (List Nat × HtmlTag)) :=
  (Selector.parse cmd).map (fun sels => selLoop [⟨[], t, sels⟩] [])

/-- Model of `HtmlTag.select`: seed the queue with the node itself and the full chain;
`none` models a selector-parse exception. -/
def HtmlTag.select (t : HtmlTag) (cmd : String) : Option (List HtmlTag) :=
  (selectP t cmd).map (fun prs => prs.map Prod.snd)

/-- Decimal digit character. -/
def digitChar : Nat → Char
  | 0 => '0' | 1 => '1' | 2 => '2' | 3 => '3' | 4 => '4'
  | 5 => '5' | 6 => '6' | 7 => '7' | 8 => '8' | _ => '9'

/-- Decimal digits of a natural number (Python `str(i)` for `i >= 0`). -/
def natChars (n : Nat) : List Char :=
  if h : n < 10 then [digitChar n]
  else natChars (n / 10) ++ [digitChar (n % 10)]
decreasing_by exact Nat.div_lt_self (by omega) (by norm_num)

/-- Model of `HtmlTag.get_path` on the node at position `p`: the walk to the root
prepends `':{i}'` at each level and the leading colon is stripped
(`path[1:]`). -/
def getPath (p : List Nat) : String :=
  String.mk (((p.map (fun i => ':' :: natChars i)).join).drop 1)

def isDigitChar (c : Char) : Bool := 48 ≤ c.toNat && c.toNat ≤ 57

def digitVal (c : Char) : Nat := c.toNat - 48

/-- Decimal-digit parse of a nonempty all-digit string. -/
def parseDigits (l : List Char) : Option Nat :=
  if l ≠ [] ∧ l.all isDigitChar then some (l.foldl (fun a c => a * 10 + digitVal c) 0)
  else none

/-- Python `int(s)` on the strings that occur here: optional sign followed by
decimal digits, `ValueError` otherwise. -/
def pyInt? (s : List Char) : Option Int :=
  match s with
  | [] => none
  | c :: ds =>
    if c = '-' then (parseDigits ds).map (fun n => -(n : Int))
    else if c = '+' then (parseDigits ds).map (fun n => (n : Int))
    else (parseDigits (c :: ds)).map (fun n => (n : Int))

/-- Python `l[i]` on a list, with negative indexing and `IndexError` as
`none`. -/
def pyIndex (l : List HtmlTag) (i : Int) : Option HtmlTag :=
  if 0 ≤ i then l.get? i.toNat
  else if 0 ≤ i + l.length then l.get? (i + l.length).toNat
  else none

/-- Model of `HtmlParser.get_tag`: split the path on `':'`, parse every piece as an
integer, then index into successive child lists. -/
def get_tag (root : HtmlTag) (path : String) : Option HtmlTag :=
  (mapOpt pyInt? (pySplitChar ':' path.data)).bind
    (foldOpt (fun t i => pyIndex t.children i) root)

/-- Model of `HtmlParser.get_tags`. -/
def get_tags (root : HtmlTag) (paths : List String) : Option (List HtmlTag) :=
  mapOpt (get_tag root) paths

/-- State of `HtmlParser`: the current tree and the query-string-keyed path
cache. -/
structure HtmlParser where
  root : HtmlTag
  cache_dict : List (String × List String)

/-- Model of `HtmlParser.select`: on a cache hit return the re-decoded nodes without
touching the cache; otherwise run the tree query and store the encoded paths
of the results (even when `cache` is false). -/
def HtmlParser.select (p : HtmlParser) (cmd : String) (cache : Bool) :
    Option (List HtmlTag) × HtmlParser :=
  if cache ∧ (alookup cmd p.cache_dict).isSome then
    ((alookup cmd p.cache_dict).bind (fun paths => get_tags p.root paths), p)
  else
    match selectP p.root cmd with
    | none => (none, p)
    | some prs =>
        (some (prs.map Prod.snd),
         { p with cache_dict := dictSet p.cache_dict cmd (prs.map (fun pr => getPath pr.1)) })

/-- Node of a tree at a root-to-node list of sibling indices. -/
def nodeAt : HtmlTag → List Nat → Option HtmlTag
  | t, [] => some t
  | t, i :: p => (t.children.get? i).bind (fun c => nodeAt c p)

/-- Reflexive descendant relation of the tree. -/
inductive InTree (x : HtmlTag) : HtmlTag → Prop where
  | refl : InTree x x
  | child {t c : HtmlTag} : c ∈ t.children → InTree x c → InTree x t

/-- Proper descendant relation: `x` lives inside one of `t`'s children. -/
def StrictDesc (x t : HtmlTag) : Prop :=
  ∃ c ∈ t.children, InTree x c

theorem nodeAt_append (t : HtmlTag) (p : List Nat) (i : Nat) :
    nodeAt t (p ++ [i]) = (nodeAt t p).bind (fun u => u.children.get? i) := by
  induction p generalizing t with
  | nil => simp [nodeAt]
  | cons j p ih =>
    simp only [List.cons_append, nodeAt]
    cases t.children.get? j with
    | none => simp
    | some c => simp [ih c]

theorem nodeAt_inTree {t x : HtmlTag} {p : List Nat} (h : nodeAt t p = some x) :
    InTree x t := by
  induction p generalizing t with
  | nil => simp [nodeAt] at h; subst h; exact InTree.refl
  | cons i p ih =>
    simp only [nodeAt] at h
    cases hg : t.children.get? i with
    | none => rw [hg] at h; exact absurd h (by simp)
    | some c =>
      rw [hg] at h
      exact InTree.child (List.get?_mem hg) (ih (by simpa using h))

theorem nodeAt_strictDesc {t x : HtmlTag} {p : List Nat} (hp : p ≠ [])
    (h : nodeAt t p = some x) : StrictDesc x t := by
  cases p with
  | nil => exact absurd rfl hp
  | cons i p =>
    simp only [nodeAt] at h
    cases hg : t.children.get? i with
    | none => rw [hg] at h; exact absurd h (by simp)
    | some c =>
      rw [hg] at h
      exact ⟨c, List.get?_mem hg, nodeAt_inTree (by simpa using h)⟩

theorem sizeTag_mem_le {c : HtmlTag} {ks : List HtmlTag} (h : c ∈ ks) :
    sizeTag c ≤ sizeTagList ks := by
  induction ks with
  | nil => simp at h
  | cons k ks ih =>
    rcases List.mem_cons.mp h with h | h
    · subst h; simp [sizeTagList]
    · have := ih h
      simp [sizeTagList]
      omega

theorem inTree_size {x t : HtmlTag} (h : InTree x t) : sizeTag x ≤ sizeTag t := by
  induction h with
  | refl => exact le_refl _
  | child hmem hin ih =>
    rename_i t c
    have h1 : sizeTag c ≤ sizeTagList t.children := sizeTag_mem_le hmem
    have h2 : sizeTag t = 1 + sizeTagList t.children := by
      cases t with
      | mk a b cc d ks => simp [sizeTag, HtmlTag.children]
    omega

theorem strictDesc_size {x t : HtmlTag} (h : StrictDesc x t) : sizeTag x < sizeTag t := by
  obtain ⟨c, hmem, hin⟩ := h
  have h1 : sizeTag x ≤ sizeTag c := inTree_size hin
  have h2 : sizeTag c ≤ sizeTagList t.children := sizeTag_mem_le hmem
  have h3 : sizeTag t = 1 + sizeTagList t.children := by
    cases t with
    | mk a b cc d ks => simp [sizeTag, HtmlTag.children]
  omega

theorem strictDesc_irrefl (t : HtmlTag) : ¬ StrictDesc t t := by
  intro h
  exact absurd (strictDesc_size h) (lt_irrefl _)

theorem childItems_mem {p : List Nat} {sels : List Selector} :
    ∀ {cs : List HtmlTag} {i : Nat} {it : QItem}, it ∈ childItems p sels i cs →
      ∃ j c, cs.get? j = some c ∧ it = ⟨p ++ [i + j], c, sels⟩ := by
  intro cs
  induction cs with
  | nil => intro i it h; simp [childItems] at h
  | cons c cs ih =>
    intro i it h
    rcases List.mem_cons.mp h with h | h
    · exact ⟨0, c, rfl, by simpa using h⟩
    · obtain ⟨j, c', hg, heq⟩ := ih h
      refine ⟨j + 1, c', by simpa using hg, ?_⟩
      rw [heq]
      have harith : i + 1 + j = i + (j + 1) := by omega
      rw [harith]

/-- Invariant preservation for the BFS loop: any property of (path, node)
pairs that is closed under stepping to a child holds of every recorded result
once it holds of every queued item and every already-recorded result. -/
theorem selLoop_inv (S : List Nat → HtmlTag → Prop)
    (hS : ∀ p t i c, S p t → t.children.get? i = some c → S (p ++ [i]) c) :
    ∀ q res, (∀ it ∈ q, S it.path it.html_tag) → (∀ pr ∈ res, S pr.1 pr.2) →
      ∀ pr ∈ selLoop q res, S pr.1 pr.2 := by
  have hqstep : ∀ (it : QItem) (q : List QItem) (sels : List Selector),
      (∀ x ∈ it :: q, S x.path x.html_tag) →
      ∀ x ∈ q ++ childItems it.path sels 0 it.html_tag.children, S x.path x.html_tag := by
    intro it q sels hq x hx
    rcases List.mem_append.mp hx with hx | hx
    · exact hq x (List.mem_cons_of_mem _ hx)
    · obtain ⟨j, c, hg, heq⟩ := childItems_mem hx
      subst heq
      simpa using hS _ _ _ _ (hq it (List.mem_cons_self _ _)) hg
  intro q res
  induction q, res using selLoop.induct with
  | case1 res =>
    intro _ hres
    rw [selLoop_nil]
    exact hres
  | case2 it q res hsel ih =>
    intro hq hres
    rw [selLoop_cons_empty q res hsel]
    exact ih (hqstep it q _ hq) hres
  | case3 it q res s hchk hsel ih =>
    intro hq hres
    rw [selLoop_cons_hit1 q res hsel hchk]
    refine ih (hqstep it q _ hq) ?_
    intro pr hpr
    rcases List.mem_append.mp hpr with hpr | hpr
    · exact hres pr hpr
    · rw [List.mem_singleton.mp hpr]
      exact hq it (List.mem_cons_self _ _)
  | case4 it q res s hchk s' rest hsel ih =>
    intro hq hres
    rw [selLoop_cons_hitN q res hsel hchk]
    refine ih ?_ hres
    intro x hx
    rcases List.mem_append.mp hx with hx | hx
    · exact hqstep it q _ hq x hx
    · obtain ⟨j, c, hg, heq⟩ := childItems_mem hx
      subst heq
      simpa using hS _ _ _ _ (hq it (List.mem_cons_self _ _)) hg
  | case5 it q res s rest hsel hchk ih =>
    intro hq hres
    simp only [Bool.not_eq_true] at hchk
    rw [selLoop_cons_miss q res hsel hchk]
    exact ih (hqstep it q _ hq) hres

/-- Attach a finished frame to its parent and move the cursor there: the
`self.cur_tag = self.cur_tag.parent` pop at the end of `handle_endtag`. -/
def attachPop (t : Frame) (r : List Frame) : BState :=
  match r with
  | [] => .rootClosed t
  | p :: r' => .active { p with children := p.children ++ [t.toTag] } r'

/-- The `handle_endtag` walk, narrated per level: the list of visit-time
child lists (cursor level first, each already containing the previously
visited, emptied node), the target frame, and the stack below the target. -/
def walkLevels (name : String) : Frame → List Frame →
    Option (List (List HtmlTag) × Frame × List Frame)
  | f, rest =>
    if f.tag = name then some ([], f, rest)
    else
      match rest with
      | [] => none
      | p :: rest' =>
        (walkLevels name
            { p with children := p.children ++ [Frame.toTag { f with children := [] }] }
            rest').map
          (fun x => (f.children :: x.1, x.2))

theorem closeGo_eq_walk (name : String) :
    ∀ (rest : List Frame) (f : Frame) (tags : List HtmlTag),
      closeGo name f rest tags =
        (walkLevels name f rest).map (fun x =>
          attachPop
            { x.2.1 with
              children := x.2.1.children ++ (tags ++ x.1.flatten).map clearKids }
            x.2.2) := by
  intro rest
  induction rest with
  | nil =>
    intro f tags
    rw [closeGo, walkLevels]
    by_cases h : f.tag = name
    · simp [h, attachPop]
    · simp [h]
  | cons p rest' ih =>
    intro f tags
    rw [closeGo, walkLevels]
    by_cases h : f.tag = name
    · simp [h, attachPop]
    · simp only [h, if_false]
      rw [ih]
      cases hw : walkLevels name
          { p with children := p.children ++ [Frame.toTag { f with children := [] }] }
          rest' with
      | none => simp only [hw, Option.map_none']
      | some x =>
        simp only [hw, Option.map_some']
        simp [List.append_assoc]

theorem closeGo_unmatched (name : String) :
    ∀ (rest : List Frame) (f : Frame) (tags : List HtmlTag),
      f.tag ≠ name → (∀ g ∈ rest, g.tag ≠ name) →
      closeGo name f rest tags = none := by
  intro rest
  induction rest with
  | nil =>
    intro f tags hf _
    rw [closeGo]
    simp [hf]
  | cons p rest' ih =>
    intro f tags hf hrest
    rw [closeGo]
    simp only [hf, if_false]
    exact ih _ _ (hrest p (List.mem_cons_self _ _))
      (fun g hg => hrest g (List.mem_cons_of_mem _ hg))

theorem runEvents_append (es₁ es₂ : List Event) :
    ∀ s, runEvents s (es₁ ++ es₂) = (runEvents s es₁).bind (fun s' => runEvents s' es₂) := by
  induction es₁ with
  | nil => intro s; simp [runEvents]
  | cons e es ih =>
    intro s
    simp only [List.cons_append, runEvents]
    cases step s e with
    | none => simp
    | some s' => simp [ih s']

/-- Character list underlying `getPath` before the leading colon is
stripped. -/
def gpChars (p : List Nat) : List Char :=
  (p.map (fun i => ':' :: natChars i)).flatten

/-- Accumulated decimal value of a digit list. -/
def digitsVal (l : List Char) : Nat :=
  l.foldl (fun a c => a * 10 + digitVal c) 0

theorem getPath_eq (p : List Nat) : getPath p = String.mk ((gpChars p).drop 1) := by
  rfl

theorem digitVal_digitChar {n : Nat} (h : n < 10) : digitVal (digitChar n) = n := by
  interval_cases n <;> rfl

theorem isDigit_digitChar {n : Nat} (h : n < 10) : isDigitChar (digitChar n) = true := by
  interval_cases n <;> rfl

theorem natChars_spec (n : Nat) :
    natChars n ≠ [] ∧ (natChars n).all isDigitChar = true ∧ digitsVal (natChars n) = n := by
  induction n using Nat.strong_induction_on with
  | _ n ih =>
    rw [natChars]
    by_cases h : n < 10
    · simp only [h, dif_pos]
      refine ⟨by simp, by simp [isDigit_digitChar h], ?_⟩
      simp [digitsVal, digitVal_digitChar h]
    · simp only [h, dif_neg, not_false_iff]
      have hdiv : n / 10 < n := Nat.div_lt_self (by omega) (by norm_num)
      obtain ⟨h1, h2, h3⟩ := ih (n / 10) hdiv
      refine ⟨by simp, ?_, ?_⟩
      · rw [List.all_append, h2]
        simp [isDigit_digitChar (Nat.mod_lt n (by norm_num) : n % 10 < 10)]
      · rw [digitsVal, List.foldl_append]
        have : (natChars (n / 10)).foldl (fun a c => a * 10 + digitVal c) 0 = n / 10 := h3
        rw [this]
        simp [digitVal_digitChar (Nat.mod_lt n (by norm_num) : n % 10 < 10)]
        omega

theorem digit_not_sign {c : Char} (h : isDigitChar c = true) : c ≠ '-' ∧ c ≠ '+' ∧ c ≠ ':' := by
  simp only [isDigitChar, Bool.and_eq_true, decide_eq_true_eq] at h
  refine ⟨?_, ?_, ?_⟩ <;> intro heq <;> subst heq <;> simp at h <;> omega

theorem parseDigits_natChars (n : Nat) : parseDigits (natChars n) = some n := by
  obtain ⟨h1, h2, h3⟩ := natChars_spec n
  rw [parseDigits, if_pos ⟨h1, h2⟩]
  rw [show (natChars n).foldl (fun a c => a * 10 + digitVal c) 0 = n from h3]

theorem pyInt?_natChars (n : Nat) : pyInt? (natChars n) = some (n : Int) := by
  obtain ⟨h1, h2, _⟩ := natChars_spec n
  cases hc : natChars n with
  | nil => exact absurd hc h1
  | cons c ds =>
    have hd : isDigitChar c = true := by
      rw [hc] at h2
      simp [List.all_cons] at h2
      exact h2.1
    obtain ⟨hm, hp, _⟩ := digit_not_sign hd
    rw [pyInt?]
    simp only [hm, hp, if_false]
    rw [← hc, parseDigits_natChars]
    rfl

theorem natChars_no_colon (n : Nat) : ∀ x ∈ natChars n, x ≠ ':' := by
  obtain ⟨_, h2, _⟩ := natChars_spec n
  intro x hx
  have := (List.all_eq_true.mp h2) x hx
  exact (digit_not_sign (by simpa using this)).2.2

theorem pySplitChar_sepFree {c : Char} : ∀ {l : List Char}, (∀ x ∈ l, x ≠ c) →
    pySplitChar c l = [l] := by
  intro l
  induction l with
  | nil => intro _; rfl
  | cons x l ih =>
    intro h
    rw [pySplitChar]
    have hx : x ≠ c := h x (List.mem_cons_self _ _)
    rw [if_neg hx, ih (fun y hy => h y (List.mem_cons_of_mem _ hy))]

theorem pySplitChar_append {c : Char} : ∀ {a : List Char} (b : List Char),
    (∀ x ∈ a, x ≠ c) → pySplitChar c (a ++ c :: b) = a :: pySplitChar c b := by
  intro a
  induction a with
  | nil => intro b _; simp [pySplitChar]
  | cons x a ih =>
    intro b h
    have hx : x ≠ c := h x (List.mem_cons_self _ _)
    simp only [List.cons_append]
    rw [pySplitChar, if_neg hx, ih b (fun y hy => h y (List.mem_cons_of_mem _ hy))]

theorem split_gpChars : ∀ (p : List Nat) (i : Nat),
    pySplitChar ':' (natChars i ++ gpChars p) = natChars i :: p.map natChars := by
  intro p
  induction p with
  | nil =>
    intro i
    simp only [gpChars, List.map_nil, List.flatten_nil, List.append_nil, List.map_nil]
    exact pySplitChar_sepFree (natChars_no_colon i)
  | cons j p ih =>
    intro i
    have : natChars i ++ gpChars (j :: p) = natChars i ++ ':' :: (natChars j ++ gpChars p) := by
      simp [gpChars]
    rw [this, pySplitChar_append _ (natChars_no_colon i), ih j]
    simp

theorem foldOpt_pyIndex : ∀ (p : List Nat) (t x : HtmlTag), nodeAt t p = some x →
    foldOpt (fun u i => pyIndex u.children i) t (p.map (fun n => (n : Int))) = some x := by
  intro p
  induction p with
  | nil =>
    intro t x h
    simp [nodeAt] at h
    simp [foldOpt, h]
  | cons i p ih =>
    intro t x h
    simp only [nodeAt] at h
    cases hg : t.children.get? i with
    | none => rw [hg] at h; exact absurd h (by simp)
    | some c =>
      rw [hg] at h
      simp only [List.map_cons, foldOpt]
      have hpi : pyIndex t.children (i : Int) = some c := by
        rw [pyIndex, if_pos (by omega)]
        simpa using hg
      rw [hpi]
      simpa using ih c x (by simpa using h)

theorem getTag_getPath {root x : HtmlTag} {p : List Nat} (hp : p ≠ [])
    (h : nodeAt root p = some x) : get_tag root (getPath p) = some x := by
  cases p with
  | nil => exact absurd rfl hp
  | cons i p =>
    rw [get_tag, getPath_eq]
    have hdata : (String.mk ((gpChars (i :: p)).drop 1)).data = natChars i ++ gpChars p := by
      simp [gpChars]
    rw [hdata, split_gpChars p i]
    have hmapM : ∀ q : List Nat, mapOpt pyInt? (q.map natChars) =
        some (q.map (fun n => (n : Int))) := by
      intro q
      induction q with
      | nil => rfl
      | cons j q ih => simp [mapOpt, pyInt?_natChars, ih]
    have h1 : mapOpt pyInt? (natChars i :: p.map natChars) =
        some ((i :: p).map (fun n => (n : Int))) := by
      simpa [List.map_cons] using hmapM (i :: p)
    rw [h1]
    simpa using foldOpt_pyIndex (i :: p) root x h

theorem dropWhile_length_le (p : Char → Bool) :
    ∀ l : List Char, (l.dropWhile p).length ≤ l.length := by
  intro l
  induction l with
  | nil => simp [List.dropWhile]
  | cons a l ih =>
    simp only [List.dropWhile]
    cases p a <;> simp <;> omega

/-- Spec-style scanner: a piece is introduced by `sep` and runs to the next
stop character (or the end); scanning resumes at the terminator. -/
def specScan (sep : Char) (stops : List Char) : List Char → List String
  | [] => []
  | c :: rest =>
    if c = sep then
      String.mk (rest.takeWhile (fun x => !stops.contains x)) ::
        specScan sep stops (rest.dropWhile (fun x => !stops.contains x))
    else specScan sep stops rest
termination_by l => l.length
decreasing_by
  all_goals simp only [List.length_cons]
  · exact Nat.lt_succ_of_le (dropWhile_length_le _ _)
  · omega

theorem specScan_no_sep (sep : Char) (stops : List Char) :
    ∀ l : List Char, (∀ x ∈ l, x ≠ sep) → specScan sep stops l = [] := by
  intro l
  induction l with
  | nil => intro _; rw [specScan]
  | cons c rest ih =>
    intro h
    rw [specScan, if_neg (h c (List.mem_cons_self _ _))]
    exact ih (fun y hy => h y (List.mem_cons_of_mem _ hy))


theorem cleanLoop_state (sep : Char) (stops : List Char) (hsep : sep ∈ stops) :
    ∀ (rest : List Char) (i : Nat) (acc : List String), 1 ≤ i →
      (cleanLoop sep stops rest i none acc = acc ++ specScan sep stops rest) ∧
      (∀ (k : Nat) (buf : List Char), k ≠ 0 →
        cleanLoop sep stops rest i (some (k, buf)) acc =
          acc ++ [String.mk (buf.reverse ++ rest.takeWhile (fun x => !stops.contains x))]
            ++ specScan sep stops (rest.dropWhile (fun x => !stops.contains x))) := by
  have hcontains : stops.contains sep = true := by
    simpa using List.elem_iff.mpr hsep
  intro rest
  induction rest with
  | nil =>
    intro i acc hi
    constructor
    · rw [cleanLoop, specScan]
      simp
    · intro k buf hk
      rw [cleanLoop]
      simp [List.takeWhile, List.dropWhile, specScan]
  | cons c rest ih =>
    intro i acc hi
    have hil : 1 ≤ i + 1 := by omega
    constructor
    · rw [cleanLoop]
      by_cases hc : c = sep
      · rw [if_pos hc]
        have h2 := ((ih (i + 1) acc hil).2) i [] (by omega)
        rw [specScan, if_pos hc]
        simpa using h2
      · rw [if_neg hc]
        have h1 := (ih (i + 1) acc hil).1
        rw [specScan, if_neg hc]
        simpa using h1
    · intro k buf hk
      rw [cleanLoop]
      cases hstop : stops.contains c with
      | true =>
        have hcmem : c ∈ stops := List.mem_of_elem_eq_true hstop
        rw [if_pos (show (true && decide (k ≠ 0)) = true by simp [hk])]
        have htake : (c :: rest).takeWhile (fun x => !stops.contains x) = [] := by
          simp [List.takeWhile, hstop, hcmem]
        have hdrop : (c :: rest).dropWhile (fun x => !stops.contains x) = c :: rest := by
          simp [List.dropWhile, hstop, hcmem]
        rw [htake, hdrop]
        by_cases hc : c = sep
        · rw [if_pos hc]
          have h2 := ((ih (i + 1) (acc ++ [String.mk buf.reverse]) hil).2) i [] (by omega)
          rw [specScan, if_pos hc]
          simp only [List.reverse_nil, List.nil_append] at h2
          rw [h2]
          simp
        · rw [if_neg hc]
          have h1 := (ih (i + 1) (acc ++ [String.mk buf.reverse]) hil).1
          rw [specScan, if_neg hc]
          rw [h1]
          simp
      | false =>
        have hnotmem : c ∉ stops := by
          intro hm
          have hel : stops.contains c = true := by simpa using List.elem_iff.mpr hm
          rw [hel] at hstop
          simp at hstop
        rw [if_neg (show ¬ (false && decide (k ≠ 0)) = true by simp)]
        have hc : c ≠ sep := by
          intro heq
          rw [heq, hcontains] at hstop
          simp at hstop
        rw [if_neg hc]
        have h2 := ((ih (i + 1) acc hil).2) k (c :: buf) hk
        have htake : (c :: rest).takeWhile (fun x => !stops.contains x) =
            c :: rest.takeWhile (fun x => !stops.contains x) := by
          simp [List.takeWhile, hstop, hnotmem]
        have hdrop : (c :: rest).dropWhile (fun x => !stops.contains x) =
            rest.dropWhile (fun x => !stops.contains x) := by
          simp [List.dropWhile, hstop, hnotmem]
        rw [htake, hdrop, h2]
        simp

theorem clean_eq_specScan (sep : Char) (stops : List Char) (hsep : sep ∈ stops)
    (cmd : String) (hhead : cmd.data.head? ≠ some sep) :
    clean sep stops cmd = specScan sep stops cmd.data := by
  rw [clean]
  by_cases hmem : cmd.data.contains sep = true
  · rw [if_pos hmem]
    cases hd : cmd.data with
    | nil => rw [hd] at hmem; simp at hmem
    | cons c rest =>
      have hc : c ≠ sep := by
        rw [hd] at hhead
        simpa using hhead
      rw [cleanLoop, if_neg hc]
      rw [(cleanLoop_state sep stops hsep rest (0 + 1) [] (by omega)).1]
      rw [specScan, if_neg hc]
      simp
  · rw [if_neg hmem]
    have hnone : ∀ x ∈ cmd.data, x ≠ sep := by
      intro x hx heq
      subst heq
      exact hmem (by simpa using List.elem_iff.mpr hx)
    rw [specScan_no_sep sep stops cmd.data hnone]

theorem alookup_map_overwrite {β : Type} (k k' : String) (v : β) :
    ∀ d : List (String × β),
      alookup k' (d.map (fun p => if p.1 = k then (k, v) else p)) =
        if k' = k then (if d.any (fun p => p.1 = k) then some v else none)
        else alookup k' d := by
  intro d
  induction d with
  | nil => simp [alookup]
  | cons a d ih =>
    obtain ⟨a1, a2⟩ := a
    simp only [List.map_cons, List.any_cons]
    by_cases hak : a1 = k
    · rw [show (if (a1, a2).1 = k then (k, v) else (a1, a2)) = (k, v) from if_pos hak]
      rw [alookup]
      by_cases hk' : k' = k
      · rw [if_pos hk'.symm, if_pos hk', if_pos (by simp [hak])]
      · rw [if_neg (fun h => hk' h.symm), ih, if_neg hk', if_neg hk', alookup,
          if_neg (fun h => hk' ((hak ▸ h : k = k').symm))]
    · rw [show (if (a1, a2).1 = k then (k, v) else (a1, a2)) = (a1, a2) from if_neg hak]
      rw [alookup, alookup]
      by_cases ha : a1 = k'
      · have hkk : ¬ (k' = k) := fun h => hak (ha.trans h)
        rw [if_pos ha, if_neg hkk, if_pos ha]
      · rw [if_neg ha, if_neg ha, ih]
        by_cases hkk : k' = k
        · rw [if_pos hkk, if_pos hkk]
          have hdec : decide (a1 = k) = false := by simp [hak]
          simp only [hdec, Bool.false_or]
        · rw [if_neg hkk, if_neg hkk]

theorem alookup_append_new {β : Type} (k k' : String) (v : β) :
    ∀ d : List (String × β), ¬ (d.any (fun p => p.1 = k) = true) →
      alookup k' (d ++ [(k, v)]) = if k' = k then some v else alookup k' d := by
  intro d
  induction d with
  | nil =>
    intro _
    simp only [List.nil_append, alookup]
    by_cases hk' : k' = k
    · simp [hk']
    · simp [hk', show ¬ (k = k') from fun h => hk' h.symm]
  | cons a d ih =>
    intro hany
    obtain ⟨a1, a2⟩ := a
    simp only [List.any_cons, Bool.or_eq_true, not_or] at hany
    obtain ⟨hak, hdany⟩ := hany
    have hak' : ¬ (a1 = k) := by simpa using hak
    simp only [List.cons_append, alookup, List.append_eq]
    by_cases ha : a1 = k'
    · have hkk : ¬ (k' = k) := fun h => hak' (ha.trans h)
      rw [if_pos ha, if_neg hkk, if_pos ha]
    · rw [if_neg ha, if_neg ha, ih (by simpa using hdany)]

theorem dictSet_alookup {β : Type} (d : List (String × β)) (k k' : String) (v : β) :
    alookup k' (dictSet d k v) = if k' = k then some v else alookup k' d := by
  rw [dictSet]
  by_cases hany : d.any (fun p => p.1 = k) = true
  · rw [if_pos hany, alookup_map_overwrite, hany]
    simp
  · rw [if_neg hany]
    exact alookup_append_new k k' v d hany

/-- Value carried by the last attribute piece whose key (the part before the
unique `=`) equals `k` — the "later duplicate overwrites earlier" reading. -/
def lastVal (k : String) : List String → Option String
  | [] => none
  | s :: rest =>
    match lastVal k rest with
    | some v => some v
    | none =>
      match pySplitChar '=' s.data with
      | [a, b] => if String.mk a = k then some (String.mk b) else none
      | _ => none

theorem attrsFold_alookup : ∀ (pieces : List String) (d d' : List (String × String)),
    attrsFold d pieces = some d' → ∀ k,
      alookup k d' = match lastVal k pieces with
        | some v => some v
        | none => alookup k d := by
  intro pieces
  induction pieces with
  | nil =>
    intro d d' h k
    simp [attrsFold] at h
    subst h
    rw [lastVal]
  | cons s rest ih =>
    intro d d' h k
    rw [attrsFold] at h
    cases hsp : pySplitChar '=' s.data with
    | nil => rw [hsp] at h; exact absurd h (by simp)
    | cons a tl =>
      cases tl with
      | nil => rw [hsp] at h; exact absurd h (by simp)
      | cons b tl2 =>
        cases tl2 with
        | cons c tl3 => rw [hsp] at h; exact absurd h (by simp)
        | nil =>
          rw [hsp] at h
          have h' : attrsFold (dictSet d (String.mk a) (String.mk b)) rest = some d' := h
          have hrec := ih _ _ h' k
          cases hl : lastVal k rest with
          | some v =>
            rw [hl] at hrec
            have hrecv : alookup k d' = some v := hrec
            have hlastv : lastVal k (s :: rest) = some v := by
              rw [lastVal, hl]
            rw [hlastv, hrecv]
          | none =>
            rw [hl] at hrec
            have hrecv : alookup k d' =
                alookup k (dictSet d (String.mk a) (String.mk b)) := hrec
            have hlastv : lastVal k (s :: rest) =
                if String.mk a = k then some (String.mk b) else none := by
              rw [lastVal, hl, hsp]
            rw [hlastv, hrecv, dictSet_alookup]
            by_cases hka : String.mk a = k
            · rw [if_pos hka, if_pos hka.symm]
            · rw [if_neg hka, if_neg (fun h2 => hka h2.symm)]

theorem attrsFold_shapes : ∀ (pieces : List String) (d d' : List (String × String)),
    attrsFold d pieces = some d' →
    ∀ s ∈ pieces, ∃ a b, pySplitChar '=' s.data = [a, b] := by
  intro pieces
  induction pieces with
  | nil => intro d d' _ s hs; simp at hs
  | cons s rest ih =>
    intro d d' h x hx
    rw [attrsFold] at h
    cases hsp : pySplitChar '=' s.data with
    | nil => rw [hsp] at h; exact absurd h (by simp)
    | cons a tl =>
      cases tl with
      | nil => rw [hsp] at h; exact absurd h (by simp)
      | cons b tl2 =>
        cases tl2 with
        | cons c tl3 => rw [hsp] at h; exact absurd h (by simp)
        | nil =>
          rw [hsp] at h
          rcases List.mem_cons.mp hx with hx | hx
          · exact ⟨a, b, hx ▸ hsp⟩
          · exact ih _ _ h x hx

/-- Spec reading of the class-token sequence of a node. -/
def classTokens (t : HtmlTag) : List String :=
  match alookup "class" t.attrs with
  | some (AttrVal.classList cs) => cs
  | _ => []

/-- A node whose `class` attribute value, when present, is a class-token list:
every node the tree builder produces is of this shape. -/
def WellClassed (t : HtmlTag) : Prop :=
  ∀ v, alookup "class" t.attrs = some v → ∃ cs, v = AttrVal.classList cs

/-- The predicate-to-node test worded as in the spec: four conjuncts, each
trivially satisfied by an empty predicate field. -/
def SpecMatch (sel : Selector) (t : HtmlTag) : Prop :=
  (sel.tag = "" ∨ sel.tag = t.tag) ∧
  (sel.id = "" ∨ alookup "id" t.attrs = some (AttrVal.plain sel.id)) ∧
  (sel.cls = [] ∨ ∀ c ∈ sel.cls, c ∈ classTokens t) ∧
  (∀ kv ∈ sel.attrs, alookup kv.1 t.attrs = some (AttrVal.plain kv.2))

theorem check_tag_iff (sel : Selector) (t : HtmlTag) :
    sel.check_tag t = true ↔ (sel.tag = "" ∨ sel.tag = t.tag) := by
  rw [Selector.check_tag]
  by_cases h : sel.tag = ""
  · simp [h]
  · simp [h]

theorem check_id_iff (sel : Selector) (t : HtmlTag) :
    sel.check_id t = true ↔
      (sel.id = "" ∨ alookup "id" t.attrs = some (AttrVal.plain sel.id)) := by
  rw [Selector.check_id]
  by_cases h : sel.id = ""
  · simp [h]
  · rw [if_pos (by simpa using h)]
    cases ha : alookup "id" t.attrs with
    | none => simp [h, ha]
    | some v =>
      cases v with
      | plain s' =>
        simp only [pyEqStrAttr, h, false_or, Option.some_inj, decide_eq_true_eq]
        constructor
        · intro he; rw [he]
        · intro he; injection he with he'; exact he'.symm
      | classList cs =>
        simp [pyEqStrAttr, h]

theorem check_cls_iff (sel : Selector) (t : HtmlTag) (hw : WellClassed t) :
    sel.check_cls t = true ↔
      (sel.cls = [] ∨ ∀ c ∈ sel.cls, c ∈ classTokens t) := by
  rw [Selector.check_cls]
  by_cases h : sel.cls = []
  · simp [h]
  · rw [if_pos (by simp [List.length_pos, h])]
    cases ha : alookup "class" t.attrs with
    | none =>
      have hct : classTokens t = [] := by simp [classTokens, ha]
      constructor
      · intro hfalse
        exact absurd hfalse (by simp)
      · rintro (hc | hall)
        · exact absurd hc h
        · obtain ⟨c, hc⟩ := List.exists_mem_of_ne_nil sel.cls h
          have hmem := hall c hc
          rw [hct] at hmem
          simp at hmem
    | some v =>
      obtain ⟨cs, rfl⟩ := hw v ha
      have hct : classTokens t = cs := by simp [classTokens, ha]
      rw [hct]
      constructor
      · intro hall
        right
        intro c hc
        have hc2 := List.all_eq_true.mp hall c hc
        simp only [pyInAttrVal] at hc2
        exact List.mem_of_elem_eq_true hc2
      · rintro (hc | hall)
        · exact absurd hc h
        · apply List.all_eq_true.mpr
          intro c hc
          simp only [pyInAttrVal]
          simpa using List.elem_iff.mpr (hall c hc)

theorem check_attrs_iff (sel : Selector) (t : HtmlTag) :
    sel.check_attrs t = true ↔
      (∀ kv ∈ sel.attrs, alookup kv.1 t.attrs = some (AttrVal.plain kv.2)) := by
  rw [Selector.check_attrs, List.all_eq_true]
  constructor
  · intro hall kv hkv
    have := hall kv hkv
    cases ha : alookup kv.1 t.attrs with
    | none => rw [ha] at this; simp at this
    | some v =>
      rw [ha] at this
      cases v with
      | plain s' =>
        simp only [pyEqStrAttr, decide_eq_true_eq] at this
        rw [this]
      | classList cs => simp [pyEqStrAttr] at this
  · intro hall kv hkv
    rw [hall kv hkv]
    simp [pyEqStrAttr]

theorem pySplitChar_exists_cons (sep : Char) (l : List Char) :
    ∃ hd tl, pySplitChar sep l = hd :: tl := by
  cases l with
  | nil => exact ⟨[], [], rfl⟩
  | cons c cs =>
    rw [pySplitChar]
    by_cases hc : c = sep
    · rw [if_pos hc]
      exact ⟨[], pySplitChar sep cs, rfl⟩
    · rw [if_neg hc]
      cases hs : pySplitChar sep cs with
      | nil => exact ⟨[c], [], rfl⟩
      | cons p ps => exact ⟨c :: p, ps, rfl⟩

theorem parse_ne_nil {cmd : String} {sels : List Selector}
    (h : Selector.parse cmd = some sels) : sels ≠ [] := by
  rw [Selector.parse] at h
  obtain ⟨hd, tl, hsp⟩ := pySplitChar_exists_cons ' ' cmd.data
  rw [pySplit, hsp] at h
  simp only [List.map_cons, mapOpt] at h
  cases hm : Selector.mk? (String.mk hd) with
  | none => rw [hm] at h; simp at h
  | some b =>
    rw [hm] at h
    cases hm2 : mapOpt Selector.mk? (tl.map (fun l => String.mk l)) with
    | none => rw [hm2] at h; simp at h
    | some bs =>
      rw [hm2] at h
      simp at h
      rw [← h]
      simp

theorem get_tags_of_results (root : HtmlTag) :
    ∀ prs : List (List Nat × HtmlTag),
      (∀ pr ∈ prs, nodeAt root pr.1 = some pr.2 ∧ pr.1 ≠ []) →
      mapOpt (get_tag root) (prs.map (fun pr => getPath pr.1)) = some (prs.map Prod.snd) := by
  intro prs
  induction prs with
  | nil => intro _; rfl
  | cons pr prs ih =>
    intro hall
    obtain ⟨hn, hne⟩ := hall pr (List.mem_cons_self _ _)
    simp only [List.map_cons, mapOpt]
    rw [getTag_getPath hne hn, ih (fun x hx => hall x (List.mem_cons_of_mem _ hx))]
    rfl

theorem nodeAt_single (root : HtmlTag) (j : Nat) :
    nodeAt root [j] = root.children.get? j := by
  simp [nodeAt]

theorem childItems_seed_inv (root : HtmlTag) (sels : List Selector) :
    ∀ it ∈ childItems [] sels 0 root.children,
      nodeAt root it.path = some it.html_tag ∧ it.path ≠ [] := by
  intro it hit
  obtain ⟨j, c, hg, heq⟩ := childItems_mem hit
  subst heq
  refine ⟨?_, by simp⟩
  simp only [List.nil_append]
  rw [nodeAt_single]
  simpa using hg

theorem selLoop_strict_inv (root : HtmlTag) (q0 : List QItem)
    (hq : ∀ it ∈ q0, nodeAt root it.path = some it.html_tag ∧ it.path ≠ []) :
    ∀ pr ∈ selLoop q0 [], nodeAt root pr.1 = some pr.2 ∧ pr.1 ≠ [] := by
  refine selLoop_inv (fun p t => nodeAt root p = some t ∧ p ≠ []) ?_ q0 [] hq (by simp)
  intro p t i c hpt hg
  refine ⟨?_, by simp⟩
  rw [nodeAt_append, hpt.1]
  simpa using hg

theorem selLoop_nodeAt_inv (root : HtmlTag) (sels : List Selector) :
    ∀ pr ∈ selLoop [⟨[], root, sels⟩] [], nodeAt root pr.1 = some pr.2 := by
  refine selLoop_inv (fun p t => nodeAt root p = some t) ?_ _ [] ?_ (by simp)
  · intro p t i c hpt hg
    rw [nodeAt_append, hpt]
    simpa using hg
  · intro it hit
    rw [List.mem_singleton] at hit
    subst hit
    rfl

/-! Claim-level definitions and theorems. -/

unseal selLoop natChars specScan

/-- Event stream of the spec's concrete mismatch-recovery example:
`open(div) open(span) open(em) text("x") close(div)`. -/
def c1Events : List Event :=
  [Event.starttag "div" [], Event.starttag "span" [], Event.starttag "em" [],
   Event.text "x", Event.endtag "div"]

/-- Claim C1 (counterexample): on the stream
`open(div) open(span) open(em) text("x") close(div)` the builder does NOT
produce a childless `div`: the root's only child is `div`, but `div` has the
two (childless) children `span` and `em`, and `em` still carries the text
`"x"`. -/
theorem c1_counterexample :
    build c1Events =
      some (HtmlTag.mk "root" [] "" []
        [HtmlTag.mk "div" [] "" []
          [HtmlTag.mk "span" [] "" [] [], HtmlTag.mk "em" [] "x" [] []]]) ∧
    (HtmlTag.mk "div" [] "" []
      [HtmlTag.mk "span" [] "" [] [], HtmlTag.mk "em" [] "x" [] []]).children.length = 2 :=
  ⟨rfl, rfl⟩

/-- Claim C1 (amended): the stream `open(div) open(span) open(em) text("x")
close(div)` yields a root whose only child is `div`; `div`'s children are
exactly `span` and `em`, in that order, both childless, and `em` keeps the
text `"x"` (only sub-tree structure is truncated, not the orphans
themselves). -/
theorem c1_thm :
    build c1Events =
      some (HtmlTag.mk "root" [] "" []
        [HtmlTag.mk "div" [] "" []
          [HtmlTag.mk "span" [] "" [] [], HtmlTag.mk "em" [] "x" [] []]]) :=
  rfl

/-- Recovery step as the claim words it, with the orphan lists of the visited
levels concatenated outer-to-inner (outermost visited ancestor first). -/
def specCloseOuter (name : String) (f : Frame) (rest : List Frame) : Option BState :=
  (walkLevels name f rest).map (fun x =>
    attachPop
      { x.2.1 with children := x.2.1.children ++ (x.1.reverse.flatten).map clearKids }
      x.2.2)

def c2FrameC : Frame := ⟨"c", [], "", [], [HtmlTag.mk "y" [] "" [] []]⟩
def c2FrameB : Frame := ⟨"b", [], "", [], [HtmlTag.mk "x" [] "" [] []]⟩
def c2Stack : List Frame := [c2FrameB, ⟨"a", [], "", [], []⟩, ⟨"root", [], "", [], []⟩]

/-- Tag names of the grandchildren under the single child of the cursor frame
of a builder state, used to observe orphan order. -/
def stateKidTags : BState → List String
  | .active p _ =>
    match p.children with
    | [t] => t.children.map HtmlTag.tag
    | _ => []
  | .rootClosed _ => []

/-- Claim C2 (counterexample): closing `a` over the stack
`c{y} :: b{x} :: a :: root` appends the orphans in cursor-to-target
(inner-to-outer) order `y, x, c`, not in the outer-to-inner order `x, c, y`
that the claim's wording prescribes. -/
theorem c2_counterexample :
    (closeGo "a" c2FrameC c2Stack []).map stateKidTags = some ["b", "y", "x", "c"] ∧
    (specCloseOuter "a" c2FrameC c2Stack).map stateKidTags = some ["b", "x", "c", "y"] ∧
    (["b", "y", "x", "c"] : List String) ≠ ["b", "x", "c", "y"] :=
  ⟨rfl, rfl, by decide⟩

/-- Claim C2 (amended): for every close event whose target exists, the code's
walk collects, at each visited node from the cursor up to but excluding the
target, that node's entire visit-time child list, clears it, truncates every
collected orphan to a childless node, and appends the orphans to the target's
child list in the order collected — which concatenates the per-level lists
inner-to-outer (cursor level first), not outer-to-inner. -/
theorem c2_thm (name : String) (f : Frame) (rest : List Frame)
    (ls : List (List HtmlTag)) (t : Frame) (r : List Frame)
    (hw : walkLevels name f rest = some (ls, t, r)) :
    closeGo name f rest [] =
      some (attachPop { t with children := t.children ++ ls.flatten.map clearKids } r) ∧
    ∀ o ∈ ls.flatten.map clearKids, o.children = [] := by
  constructor
  · rw [closeGo_eq_walk, hw]
    simp
  · intro o ho
    obtain ⟨u, _, rfl⟩ := List.mem_map.mp ho
    cases u
    rfl

def c2Levels : List (List HtmlTag) :=
  [[HtmlTag.mk "y" [] "" [] []], [HtmlTag.mk "x" [] "" [] [], HtmlTag.mk "c" [] "" [] []]]

def c2Target : Frame := ⟨"a", [], "", [], [HtmlTag.mk "b" [] "" [] []]⟩

/-- Claim C2 (witness): the amended statement evaluated on the concrete
`c{y} :: b{x} :: a :: root` stack. -/
theorem c2_witness :
    closeGo "a" c2FrameC c2Stack [] =
      some (attachPop
        { c2Target with children := c2Target.children ++ c2Levels.flatten.map clearKids }
        [⟨"root", [], "", [], []⟩]) :=
  (c2_thm "a" c2FrameC c2Stack c2Levels c2Target [⟨"root", [], "", [], []⟩] rfl).1

/-- Claim C3: when a close event names a tag carried by no frame of the open
stack — neither the cursor nor any ancestor up to and including the root —
tree construction fails: the whole build of any stream extending the prefix
with that close event returns `none` instead of a tree. -/
theorem c3_thm (es : List Event) (name : String) (more : List Event)
    (cur : Frame) (rest : List Frame)
    (hrun : runEvents initState es = some (.active cur rest))
    (hcur : cur.tag ≠ name) (hrest : ∀ g ∈ rest, g.tag ≠ name) :
    build (es ++ Event.endtag name :: more) = none := by
  rw [build, runEvents_append, hrun]
  have hstep : step (.active cur rest) (.endtag name) = none :=
    closeGo_unmatched name rest cur [] hcur hrest
  simp [runEvents, hstep]

/-- Claim C3 (witness): `open(div) close(p)` aborts the build. -/
theorem c3_witness :
    build ([Event.starttag "div" []] ++ Event.endtag "p" :: []) = none :=
  c3_thm [Event.starttag "div" []] "p" [] ⟨"div", [], "", [], []⟩
    [⟨"root", [], "", [], []⟩] rfl (by decide)
    (by intro g hg; rw [List.mem_singleton] at hg; subst hg; decide)

/-- Claim C4: for every parsed predicate and every node whose `class`
attribute (if present) is a class-token list — the shape the builder always
produces — `check_html_tag` succeeds exactly when the four spec conjuncts
hold: empty-or-equal tag, empty-or-equal id, contained classes, and exactly
equal attribute values. -/
theorem c4_thm (sel : Selector) (t : HtmlTag) (hw : WellClassed t) :
    sel.check_html_tag t = true ↔ SpecMatch sel t := by
  rw [Selector.check_html_tag, SpecMatch]
  simp only [Bool.and_eq_true]
  rw [check_tag_iff, check_id_iff, check_cls_iff sel t hw, check_attrs_iff]
  tauto

def c4Node : HtmlTag :=
  .mk "div" [("class", AttrVal.classList ["foo", "bar"])] "" [] []

def c4Sel : Selector := ⟨"div.foo", "div", ["foo"], "", []⟩

/-- Claim C4 (witness): the predicate `div.foo` against a `div` node with
class tokens `["foo", "bar"]`. -/
theorem c4_witness : c4Sel.check_html_tag c4Node = true ↔ SpecMatch c4Sel c4Node :=
  c4_thm c4Sel c4Node
    (by
      intro v hv
      simp [c4Node, HtmlTag.attrs, alookup] at hv
      exact ⟨["foo", "bar"], hv.symm⟩)


theorem alookup_class_map {l : List (String × String)} {v : AttrVal}
    (h : alookup "class" (l.map (fun p =>
        if p.1 = "class" then (p.1, AttrVal.classList (pySplit ' ' p.2))
        else (p.1, AttrVal.plain p.2))) = some v) :
    ∃ cs, v = AttrVal.classList cs := by
  induction l with
  | nil => simp [alookup] at h
  | cons a l ih =>
    obtain ⟨a1, a2⟩ := a
    by_cases ha : a1 = "class"
    · subst ha
      rw [List.map_cons, if_pos rfl, alookup, if_pos rfl] at h
      injection h with h'
      exact ⟨pySplit ' ' a2, h'.symm⟩
    · rw [List.map_cons, if_neg ha, alookup] at h
      rw [if_neg ha] at h
      exact ih h

/-- Every node the builder creates is well-classed: `handle_starttag` splits
the `class` attribute into a token list, and no later event touches a node's
attributes, so the `WellClassed` hypothesis of the C4 theorem holds of every
node of a built tree. -/
theorem buildAttrs_wellClassed (tag text : String) (comments : List String)
    (ks : List HtmlTag) (l : List (String × String)) :
    WellClassed (HtmlTag.mk tag (buildAttrs l) text comments ks) := by
  intro v hv
  rw [HtmlTag.attrs] at hv
  rw [buildAttrs] at hv
  exact alookup_class_map hv

/-- The only situation in which the BFS seed can record the root: the query
parses to a single predicate and that predicate matches the root node. -/
def RootMatchCase (root : HtmlTag) (cmd : String) : Prop :=
  ∃ s, Selector.parse cmd = some [s] ∧ s.check_html_tag root = true

def c5Child : HtmlTag := .mk "a" [] "" [] []

def c5Root : HtmlTag := .mk "root" [] "" [] [c5Child]

/-- Claim C5 (counterexample): the empty query selects the root node itself —
`select` on a root with one child returns `[root, child]`, and the root is
not a proper descendant of itself. -/
theorem c5_counterexample :
    HtmlTag.select c5Root "" = some [c5Root, c5Child] ∧ ¬ StrictDesc c5Root c5Root :=
  ⟨rfl, strictDesc_irrefl c5Root⟩

/-- Claim C5 (amended): for every query that is not a single token whose
predicate matches the root (the root's sentinel name plus any nonempty
constraint rules this out for real queries), every node returned by `select`
is a proper descendant of the root. -/
theorem c5_thm (root : HtmlTag) (cmd : String) (res : List HtmlTag) (x : HtmlTag)
    (hsel : HtmlTag.select root cmd = some res) (hx : x ∈ res)
    (hnr : ¬ RootMatchCase root cmd) : StrictDesc x root := by
  rw [HtmlTag.select, selectP] at hsel
  cases hp : Selector.parse cmd with
  | none => rw [hp] at hsel; simp at hsel
  | some sels =>
    rw [hp] at hsel
    simp only [Option.map_some'] at hsel
    have hres : res = (selLoop [⟨[], root, sels⟩] []).map Prod.snd := by
      injection hsel with h'
      exact h'.symm
    rw [hres] at hx
    obtain ⟨pr, hpr, rfl⟩ := List.mem_map.mp hx
    cases sels with
    | nil => exact absurd rfl (parse_ne_nil hp)
    | cons s srest =>
      cases hchk : s.check_html_tag root with
      | true =>
        cases srest with
        | nil => exact absurd ⟨s, hp, hchk⟩ hnr
        | cons s' r' =>
          rw [selLoop_cons_hitN [] [] rfl hchk] at hpr
          simp only [List.nil_append] at hpr
          have hinv := selLoop_strict_inv root _ ?_ pr hpr
          · exact nodeAt_strictDesc hinv.2 hinv.1
          · intro it2 hit2
            rcases List.mem_append.mp hit2 with h2 | h2
            · exact childItems_seed_inv root _ it2 h2
            · exact childItems_seed_inv root _ it2 h2
      | false =>
        rw [selLoop_cons_miss [] [] rfl hchk] at hpr
        simp only [List.nil_append] at hpr
        have hinv := selLoop_strict_inv root _ (childItems_seed_inv root _) pr hpr
        exact nodeAt_strictDesc hinv.2 hinv.1

/-- Claim C5 (witness): the query `"a"` on a root with an `a` child returns
only the child, a proper descendant. -/
theorem c5_witness : StrictDesc c5Child c5Root :=
  c5_thm c5Root "a" [c5Child] c5Child rfl (by simp)
    (by
      rintro ⟨s, hs, hchk⟩
      rw [show Selector.parse "a" = some [⟨"a", "a", [], "", []⟩] from rfl] at hs
      injection hs with h'
      injection h' with h1 h2
      subst h1
      exact absurd hchk (by decide))

/-- Class extraction exactly as claim C6 words it: substrings introduced by
`.` and terminated by the next `.`, `#` or `[` (or end of token), including a
class introduced at the very start. -/
def claimClasses (cmd : String) : List String :=
  specScan '.' ['.', '#', '['] cmd.data

/-- Claim C6 (counterexample): the token `".a.b"` parses to classes `["b"]` —
the class introduced by the leading `.` is dropped because Python's
`and start` treats index `0` as falsy — and in `"x.a]b"` the class `a` is
terminated by `]`, both contradicting the claimed extraction rule. -/
theorem c6_counterexample :
    cleanCls ".a.b" = ["b"] ∧ claimClasses ".a.b" = ["a", "b"] ∧
    cleanCls "x.a]b" = ["a"] ∧ claimClasses "x.a]b" = ["a]b"] :=
  ⟨rfl, rfl, rfl, rfl⟩

/-- Claim C6 (amended): for every selector token that does not begin with
`.`, the classes field contains exactly the substrings introduced by `.` and
terminated by the next occurrence of `.`, `#`, `[` or `]` (or the end of the
token), in order. -/
theorem c6_thm (cmd : String) (h : cmd.data.head? ≠ some '.') :
    cleanCls cmd = specScan '.' selSeps cmd.data := by
  rw [cleanCls]
  exact clean_eq_specScan '.' selSeps (by decide) cmd h

/-- Claim C6 (witness): the token `"a.x.y#z"`. -/
theorem c6_witness : cleanCls "a.x.y#z" = specScan '.' selSeps (String.data "a.x.y#z") :=
  c6_thm "a.x.y#z" (by decide)

/-- Claim C7 (counterexample): the attribute substring `k=v=w` (which the
claim would split on the first `=` into key `k` and value `v=w`) makes
selector parsing fail, because `attr.split('=')` yields three parts and the
two-name unpacking raises. -/
theorem c7_counterexample :
    Selector.mk? "a[k=v=w]" = none ∧ clean '[' [']'] "a[k=v=w]" = ["k=v=w"] :=
  ⟨rfl, rfl⟩

/-- Claim C7 (amended): whenever a selector token parses successfully, every
attribute substring (introduced by `[`, terminated by `]`) contains exactly
one `=` — otherwise parsing fails — and the parsed attribute mapping sends
each key to the value of the last such substring with that key, so a later
duplicate key overwrites an earlier one. -/
theorem c7_thm (cmd : String) (sel : Selector) (h : Selector.mk? cmd = some sel) :
    (∀ s ∈ clean '[' [']'] cmd, ∃ a b, pySplitChar '=' s.data = [a, b]) ∧
    (∀ k, alookup k sel.attrs = lastVal k (clean '[' [']'] cmd)) := by
  rw [Selector.mk?] at h
  cases ha : cleanAttrs cmd with
  | none => rw [ha] at h; simp at h
  | some d =>
    rw [ha] at h
    simp only [Option.map_some'] at h
    have hattrs : sel.attrs = d := by
      injection h with h'
      rw [← h']
    rw [cleanAttrs] at ha
    constructor
    · exact attrsFold_shapes _ _ _ ha
    · intro k
      have hres := attrsFold_alookup _ _ _ ha k
      rw [hattrs, hres]
      cases hl : lastVal k (clean '[' [']'] cmd) with
      | none => rfl
      | some v => rfl

def c7Sel : Selector := ⟨"a[k=v][k=w]", "a", [], "", [("k", "w")]⟩

/-- Claim C7 (witness): in `a[k=v][k=w]` the later `k=w` overwrites `k=v`. -/
theorem c7_witness : alookup "k" c7Sel.attrs = lastVal "k" (clean '[' [']'] "a[k=v][k=w]") :=
  (c7_thm "a[k=v][k=w]" c7Sel rfl).2 "k"

def c8Events : List Event := [Event.starttag "div" [], Event.endtag "div"]

def c8Div : HtmlTag := .mk "div" [] "" [] []

def c8Tree : HtmlTag := .mk "root" [] "" [] [c8Div]

/-- Claim C8 (counterexample): the root itself is a node of every built tree,
its encoded path is the empty string, and decoding the empty string fails
(`int('')` raises), so not every node's path decodes back to the node. -/
theorem c8_counterexample :
    build c8Events = some c8Tree ∧ nodeAt c8Tree [] = some c8Tree ∧
    getPath [] = "" ∧ get_tag c8Tree "" = none :=
  ⟨rfl, rfl, rfl, rfl⟩

/-- Claim C8 (amended): in every tree the builder returns, every proper
descendant node (any node at a nonempty position) has its encoded path decode
back to that same node. -/
theorem c8_thm (es : List Event) (tree x : HtmlTag) (p : List Nat)
    (hb : build es = some tree) (hp : p ≠ []) (hn : nodeAt tree p = some x) :
    get_tag tree (getPath p) = some x :=
  getTag_getPath hp hn

/-- Claim C8 (witness): the `div` child of the two-event tree. -/
theorem c8_witness : get_tag c8Tree (getPath [0]) = some c8Div :=
  c8_thm c8Events c8Tree c8Div [0] rfl (by decide) rfl

/-- Claim C9 (amended): starting from a fresh parser, calling `select` twice
with caching enabled and no re-parse in between returns the same node
sequence both times — provided the root itself is not among the first call's
results (per C5 that only happens for a single root-matching token such as the
empty query) — and the second call leaves the parser unchanged, every cached
path having decoded successfully. -/
theorem c9_thm (root : HtmlTag) (cmd : String) (tags : List HtmlTag) (p1 : HtmlParser)
    (h1 : HtmlParser.select ⟨root, []⟩ cmd true = (some tags, p1))
    (hroot : root ∉ tags) :
    HtmlParser.select p1 cmd true = (some tags, p1) := by
  rw [HtmlParser.select] at h1
  rw [if_neg (by simp [alookup])] at h1
  cases hsp : selectP root cmd with
  | none =>
    rw [hsp] at h1
    simp at h1
  | some prs =>
    rw [hsp] at h1
    simp only [Prod.mk.injEq] at h1
    obtain ⟨htags, hp1⟩ := h1
    have htags' : tags = prs.map Prod.snd := by
      injection htags with h'
      exact h'.symm
    rw [selectP] at hsp
    cases hpc : Selector.parse cmd with
    | none => rw [hpc] at hsp; simp at hsp
    | some sels =>
      rw [hpc] at hsp
      simp only [Option.map_some'] at hsp
      have hprs : prs = selLoop [⟨[], root, sels⟩] [] := by
        injection hsp with h'
        exact h'.symm
      have hinv : ∀ pr ∈ prs, nodeAt root pr.1 = some pr.2 := by
        rw [hprs]
        exact selLoop_nodeAt_inv root sels
      have hinv2 : ∀ pr ∈ prs, nodeAt root pr.1 = some pr.2 ∧ pr.1 ≠ [] := by
        intro pr hpr
        refine ⟨hinv pr hpr, ?_⟩
        intro hnil
        have hn := hinv pr hpr
        rw [hnil] at hn
        have hpr2 : pr.2 = root := by
          rw [nodeAt] at hn
          injection hn with h'
          exact h'.symm
        apply hroot
        rw [htags']
        exact List.mem_map.mpr ⟨pr, hpr, hpr2⟩
      rw [← hp1, HtmlParser.select]
      have hlk : alookup cmd
          (dictSet ([] : List (String × List String)) cmd
            (prs.map (fun pr => getPath pr.1))) =
          some (prs.map (fun pr => getPath pr.1)) := by
        rw [dictSet_alookup]
        simp
      rw [if_pos ⟨rfl, by rw [hlk]; rfl⟩]
      rw [hlk]
      simp only [Option.some_bind]
      rw [get_tags, get_tags_of_results root prs hinv2, htags']

def c9Child : HtmlTag := .mk "a" [] "" [] []

def c9Root : HtmlTag := .mk "root" [] "" [] [c9Child]

def c9Parser1 : HtmlParser := ⟨c9Root, [("a", ["0"])]⟩

/-- Claim C9 (witness): the query `"a"` on a root with one `a` child; the
second, cached call returns the same single node. -/
theorem c9_witness : HtmlParser.select c9Parser1 "a" true = (some [c9Child], c9Parser1) :=
  c9_thm c9Root "a" [c9Child] c9Parser1 rfl
    (by
      intro h
      rw [List.mem_singleton] at h
      simp [c9Root, c9Child] at h)


/-- Claim C9 (counterexample): with the empty query the first cached call
returns the root among its results and caches the empty path for it; the
second call then fails outright (decoding the empty path raises in `int`), so the two
calls are not node-equivalent. -/
theorem c9_counterexample :
    (HtmlParser.select ⟨c9Root, []⟩ "" true).1 = some [c9Root, c9Child] ∧
    (HtmlParser.select (HtmlParser.select ⟨c9Root, []⟩ "" true).2 "" true).1 = none :=
  ⟨rfl, rfl⟩

def c10A3 : HtmlTag := .mk "a" [] "" [] []

def c10A2 : HtmlTag := .mk "a" [] "" [] [c10A3]

def c10Root : HtmlTag := .mk "root" [] "" [] [.mk "a" [] "" [] [c10A2]]

/-- Claim C10: `select` can return the same node more than once: on the chain
`root > a > a > a` the query `"a a"` returns the innermost `a` twice (once
for each queue entry that reaches it with a single remaining predicate), so
results are not deduplicated. -/
theorem c10_thm :
    HtmlTag.select c10Root "a a" = some [c10A2, c10A3, c10A3] ∧
    ¬ ([c10A2, c10A3, c10A3] : List HtmlTag).Nodup := by
  constructor
  · rfl
  · intro h
    have h2 := (List.nodup_cons.mp h).2
    have h3 := (List.nodup_cons.mp h2).1
    exact h3 (List.mem_singleton_self _)
